import Mathlib

/-!
# Verification of the RLs experience-replay subsystem

Shallow embedding of `src/rls/memories/replay_buffer.py`:
`ExperienceReplay` (circular uniform buffer), `NStepWrapper._per_store`
(per-agent n-step accumulation), `EpisodeExperienceReplay.sample`
(windowed / padded trajectory sampling) and
`PrioritizedExperienceReplay` (priority bookkeeping, beta annealing,
importance-sampling weights).  Machine floats are modelled as `ℚ` where the
arithmetic is exact and as `ℝ` where `np.power` with real exponents appears.
The sum tree (`rls/memories/sum_tree.py`) is not part of the provided
sources; the few places that need it are modelled from the spec and marked
as such.
-/

namespace RLsSpec

/-! ## ExperienceReplay (class `ExperienceReplay`) -/

/-- State of an `ExperienceReplay` circular buffer: the fixed `capacity`,
the payload slots (`_buffer`), the write cursor (`_data_pointer`) and the
live-entry count (`_size`). -/
structure ERState (α : Type) where
  capacity : ℕ
  buffer : ℕ → Option α
  pointer : ℕ
  size : ℕ

/-- Fresh buffer as built by `ExperienceReplay.__init__`: empty slots,
cursor 0, size 0. -/
def erInit (α : Type) (C : ℕ) : ERState α :=
  { capacity := C, buffer := fun _ => none, pointer := 0, size := 0 }

/-- `update_rb_after_add`: increment the cursor, wrap to 0 when it reaches
`capacity`, and grow `size` until it saturates at `capacity`. -/
def updateRbAfterAdd {α : Type} (s : ERState α) : ERState α :=
  { s with
    pointer := if s.pointer + 1 ≥ s.capacity then 0 else s.pointer + 1,
    size := if s.size < s.capacity then s.size + 1 else s.size }

/-- `_store_op`: write the item at the cursor slot, then
`update_rb_after_add`. -/
def storeOp {α : Type} (s : ERState α) (x : α) : ERState α :=
  updateRbAfterAdd
    { s with buffer := fun j => if j = s.pointer then some x else s.buffer j }

/-- A sequence of single-item insertions (what `add` does to each zipped
transition in turn). -/
def addAll {α : Type} (s : ERState α) (xs : List α) : ERState α :=
  xs.foldl storeOp s

/-- `get_all`: the slice `_buffer[:_size]`, traversed from slot 0 upward. -/
def getAll {α : Type} (s : ERState α) : List (Option α) :=
  (List.range s.size).map s.buffer

/-- The slice `_buffer[:_size]` that `sample` draws from
(`np.random.choice(self._buffer[:self._size], ...)`). -/
def samplePool {α : Type} (s : ERState α) : List (Option α) :=
  (List.range s.size).map s.buffer

/-- `ReplayBuffer.reset` (not overridden by `ExperienceReplay`): only
`_size` is set back to 0. -/
def erReset {α : Type} (s : ERState α) : ERState α :=
  { s with size := 0 }

/-- The live slots read in insertion order, oldest first: start
`capacity - size` slots past the cursor (i.e. at the cursor exactly when
the buffer is full, at slot 0 when it has not wrapped yet). -/
def oldestFirst {α : Type} (s : ERState α) : List (Option α) :=
  (List.range s.size).map
    (fun i => s.buffer ((s.pointer + (s.capacity - s.size) + i) % s.capacity))

lemma addAll_append {α : Type} (s : ERState α) (xs : List α) (x : α) :
    addAll s (xs ++ [x]) = storeOp (addAll s xs) x := by
  simp [addAll]

lemma storeOp_capacity {α : Type} (s : ERState α) (x : α) :
    (storeOp s x).capacity = s.capacity := rfl

lemma addAll_capacity {α : Type} (s : ERState α) (xs : List α) :
    (addAll s xs).capacity = s.capacity := by
  induction xs generalizing s with
  | nil => rfl
  | cons x xs ih => simpa [addAll] using ih (storeOp s x)

lemma wrap_eq_mod (C m : ℕ) (hC : 0 < C) :
    (if m % C + 1 ≥ C then 0 else m % C + 1) = (m + 1) % C := by
  have hr : m % C < C := Nat.mod_lt _ hC
  have key : (m + 1) % C = (m % C + 1) % C := (Nat.mod_add_mod m C 1).symm
  rcases Nat.lt_or_ge (m % C + 1) C with h | h
  · rw [if_neg (by omega), key, Nat.mod_eq_of_lt h]
  · have he : m % C + 1 = C := by omega
    rw [if_pos h, key, he, Nat.mod_self]

lemma addAll_pointer_size {α : Type} (C : ℕ) (hC : 0 < C) (xs : List α) :
    (addAll (erInit α C) xs).pointer = xs.length % C ∧
    (addAll (erInit α C) xs).size = min xs.length C := by
  induction xs using List.reverseRecOn with
  | nil => simp [addAll, erInit]
  | append_singleton ys x ih =>
    obtain ⟨hp, hs⟩ := ih
    have hcap : (addAll (erInit α C) ys).capacity = C := by
      simpa [erInit] using addAll_capacity (erInit α C) ys
    rw [addAll_append]
    constructor
    · show (updateRbAfterAdd _).pointer = (ys ++ [x]).length % C
      simp only [updateRbAfterAdd, List.length_append, List.length_singleton]
      rw [hcap, hp]
      exact wrap_eq_mod C ys.length hC
    · show (updateRbAfterAdd _).size = min (ys ++ [x]).length C
      simp only [updateRbAfterAdd, List.length_append, List.length_singleton]
      rw [hcap, hs]
      split <;> omega

lemma storeOp_buffer {α : Type} (s : ERState α) (x : α) :
    (storeOp s x).buffer = fun j => if j = s.pointer then some x else s.buffer j := rfl

/-- Per-slot characterization: after inserting `xs` into a fresh buffer of
capacity `C`, reading `size` slots forward from `capacity - size` past the
cursor yields the last `min |xs| C` inserted items in insertion order. -/
lemma addAll_slot {α : Type} (C : ℕ) (hC : 0 < C) (xs : List α) :
    ∀ i < min xs.length C,
      (addAll (erInit α C) xs).buffer
          ((xs.length % C + (C - min xs.length C) + i) % C) =
        xs[xs.length - C + i]? := by
  induction xs using List.reverseRecOn with
  | nil => intro i hi; simp at hi
  | append_singleton ys x ih =>
    intro i hi
    have hp := (addAll_pointer_size C hC ys).1
    rw [addAll_append, storeOp_buffer, hp]
    simp only [List.length_append, List.length_singleton] at hi ⊢
    set m := ys.length with hm
    rcases Nat.lt_or_ge m C with hmC | hmC
    · -- not yet wrapped before this insertion: `m < C`
      have hmin : min (m + 1) C = m + 1 := by omega
      have hidx : (m + 1) % C + (C - min (m + 1) C) + i = C + i ∨
          (m + 1) % C + (C - min (m + 1) C) + i = i := by
        rcases Nat.lt_or_ge (m + 1) C with h | h
        · left; rw [Nat.mod_eq_of_lt h]; omega
        · right
          have : m + 1 = C := by omega
          rw [this, Nat.mod_self]; omega
      have hiC : i < C := by omega
      have hJ : ((m + 1) % C + (C - min (m + 1) C) + i) % C = i := by
        rcases hidx with h | h
        · rw [h, Nat.add_mod_left, Nat.mod_eq_of_lt hiC]
        · rw [h, Nat.mod_eq_of_lt hiC]
      rw [hJ]
      have hmodm : m % C = m := Nat.mod_eq_of_lt hmC
      rcases Nat.lt_or_ge i m with him | him
      · -- an old slot: use the induction hypothesis
        have hIH := ih i (by omega)
        have hidx2 : (m % C + (C - min m C) + i) % C = i := by
          rw [hmodm]
          have : min m C = m := by omega
          rw [this]
          have : m + (C - m) + i = C + i := by omega
          rw [this, Nat.add_mod_left, Nat.mod_eq_of_lt hiC]
        rw [hidx2] at hIH
        rw [if_neg (by omega), hIH]
        have h1 : m - C + i = i := by omega
        have h2 : m + 1 - C + i = i := by omega
        rw [h1, h2, List.getElem?_append, if_pos (show i < ys.length by omega)]
      · -- the freshly written slot: `i = m`
        have him' : i = m := by omega
        rw [hmodm, if_pos him']
        have h3 : m + 1 - C + i = ys.length := by omega
        rw [h3]
        exact (List.getElem?_concat_length ys x).symm
    · -- already wrapped: `C ≤ m`, the buffer stays full
      have hmin : min (m + 1) C = C := by omega
      have hiC : i < C := by omega
      have hJ : ((m + 1) % C + (C - min (m + 1) C) + i) % C = (m + 1 + i) % C := by
        rw [hmin, Nat.sub_self, Nat.add_zero, Nat.mod_add_mod]
      rw [hJ]
      rcases Nat.lt_or_ge i (C - 1) with hilt | hige
      · -- old slot, shifted by one: use IH at `i + 1`
        have hne : (m + 1 + i) % C ≠ m % C := by
          intro h
          have h1 : (m + 1 + i) % C = (m % C + (1 + i)) % C := by
            rw [Nat.mod_add_mod]; ring_nf
          have hr : m % C < C := Nat.mod_lt _ hC
          rcases Nat.lt_or_ge (m % C + (1 + i)) C with hlt | hge
          · rw [h1, Nat.mod_eq_of_lt hlt] at h; omega
          · have h2 : (m % C + (1 + i)) % C = m % C + (1 + i) - C := by
              rw [Nat.mod_eq_sub_mod hge, Nat.mod_eq_of_lt (by omega)]
            rw [h1, h2] at h; omega
        rw [if_neg hne]
        have hIH := ih (i + 1) (by omega)
        have hidx2 : (m % C + (C - min m C) + (i + 1)) % C = (m + 1 + i) % C := by
          have : min m C = C := by omega
          rw [this, Nat.sub_self, Nat.add_zero, Nat.mod_add_mod]
          ring_nf
        rw [hidx2] at hIH
        rw [hIH]
        have h1 : m - C + (i + 1) = m + 1 - C + i := by omega
        rw [h1, List.getElem?_append,
          if_pos (show m + 1 - C + i < ys.length by omega)]
      · -- the freshly written slot: `i = C - 1`
        have hie : i = C - 1 := by omega
        have heq : (m + 1 + i) % C = m % C := by
          have : m + 1 + i = m + C := by omega
          rw [this, Nat.add_mod_right]
        rw [heq, if_pos rfl]
        have : m + 1 - C + i = m := by omega
        rw [this]
        exact (List.getElem?_concat_length ys x).symm

/-- C7: for `ExperienceReplay` with capacity `C > 0`, after inserting any
sequence `xs` one item at a time, `size = min |xs| C`, the cursor equals
`|xs| % C` (hence stays in `[0, C)`), and the live slots read oldest-first
are exactly the last `C` inserted items — earlier items have been
overwritten oldest-first.  Instantiating the statement at every prefix of
an insertion sequence gives the invariant throughout. -/
theorem C7_fifo (C : ℕ) (hC : 0 < C) (xs : List ℕ) :
    (addAll (erInit ℕ C) xs).size = min xs.length C ∧
    (addAll (erInit ℕ C) xs).pointer = xs.length % C ∧
    (addAll (erInit ℕ C) xs).pointer < C ∧
    oldestFirst (addAll (erInit ℕ C) xs) =
      (xs.drop (xs.length - C)).map some := by
  obtain ⟨hp, hs⟩ := addAll_pointer_size C hC xs
  have hcap : (addAll (erInit ℕ C) xs).capacity = C := by
    simpa [erInit] using addAll_capacity (erInit ℕ C) xs
  refine ⟨hs, hp, by rw [hp]; exact Nat.mod_lt _ hC, ?_⟩
  unfold oldestFirst
  rw [hp, hs, hcap]
  apply List.ext_getElem
  · simp [List.length_drop]; omega
  · intro i h1 h2
    simp only [List.getElem_map, List.getElem_range, List.getElem_drop]
    have hi : i < min xs.length C := by simpa using h1
    have hslot := addAll_slot C hC xs i hi
    have hk2 : xs.length - C + i < xs.length := by omega
    rw [hslot]
    exact List.getElem?_eq_getElem hk2

/-- C7 witness: capacity 2, five insertions; the last two items survive in
insertion order, size saturates at 2 and the cursor has wrapped to 1. -/
theorem C7_fifo_witness :
    0 < 2 ∧
    ((addAll (erInit ℕ 2) [5, 6, 7, 8, 9]).size = min 5 2 ∧
      (addAll (erInit ℕ 2) [5, 6, 7, 8, 9]).pointer = 5 % 2 ∧
      (addAll (erInit ℕ 2) [5, 6, 7, 8, 9]).pointer < 2 ∧
      oldestFirst (addAll (erInit ℕ 2) [5, 6, 7, 8, 9]) =
        [some 8, some 9]) :=
  ⟨by decide, C7_fifo 2 (by decide) [5, 6, 7, 8, 9]⟩

/-- C4 counterexample: with capacity 2, after inserting `[0, 1, 2]` the
live items in insertion order (oldest to newest) are `1, 2`, and a
traversal starting at the cursor (slot 1) would also return `1, 2`; but
`get_all` reads slots `0, 1` in slot order and returns `2, 1`. -/
theorem C4_counterexample :
    getAll (addAll (erInit ℕ 2) [0, 1, 2]) = [some 2, some 1] ∧
    getAll (addAll (erInit ℕ 2) [0, 1, 2]) ≠ [some 1, some 2] := by
  constructor <;> decide

/-- C4 amended: `get_all` returns the slice `_buffer[:size]` in slot-index
order starting at slot 0, not at the cursor.  This equals insertion order
(oldest to newest) only while at most `capacity` items have been inserted;
once the cursor has wrapped, the returned list is the last `capacity`
items rotated so that it starts with the item in slot 0. -/
theorem C4_getAll (C : ℕ) (hC : 0 < C) (xs : List ℕ) :
    getAll (addAll (erInit ℕ C) xs) =
      if xs.length ≤ C then xs.map some
      else ((xs.drop (xs.length - C)).rotate ((C - xs.length % C) % C)).map some := by
  obtain ⟨hp, hs⟩ := addAll_pointer_size C hC xs
  unfold getAll
  rw [hs]
  rcases le_or_lt xs.length C with hle | hgt
  · rw [if_pos hle]
    have hmin : min xs.length C = xs.length := by omega
    rw [hmin]
    apply List.ext_getElem
    · simp
    · intro i h1 h2
      simp only [List.getElem_map, List.getElem_range]
      have hi : i < xs.length := by simpa using h1
      have hslot := addAll_slot C hC xs i (by omega)
      have hidx : (xs.length % C + (C - min xs.length C) + i) % C = i := by
        rcases Nat.lt_or_ge xs.length C with h | h
        · have ha : xs.length % C = xs.length := Nat.mod_eq_of_lt h
          have hb : min xs.length C = xs.length := by omega
          rw [ha, hb]
          have hc : xs.length + (C - xs.length) + i = C + i := by omega
          rw [hc, Nat.add_mod_left, Nat.mod_eq_of_lt (show i < C by omega)]
        · have ha : xs.length = C := by omega
          rw [ha, Nat.mod_self, Nat.min_self, Nat.sub_self]
          simp only [Nat.zero_add]
          exact Nat.mod_eq_of_lt (by omega)
      rw [hidx] at hslot
      have hi0 : xs.length - C + i = i := by omega
      rw [hi0] at hslot
      rw [hslot]
      exact List.getElem?_eq_getElem hi
  · rw [if_neg (by omega)]
    have hmin : min xs.length C = C := by omega
    rw [hmin]
    have hdlen : (xs.drop (xs.length - C)).length = C := by
      rw [List.length_drop]; omega
    apply List.ext_getElem
    · simp [List.length_rotate, hdlen]
    · intro i h1 h2
      have hi : i < C := by simpa using h1
      simp only [List.getElem_map, List.getElem_range]
      set k := (C - xs.length % C) % C with hk
      have hkC : k < C := Nat.mod_lt _ hC
      have hrlen : i < ((xs.drop (xs.length - C)).rotate k).length := by
        rw [List.length_rotate, hdlen]; exact hi
      rw [← List.getElem?_eq_getElem hrlen,
        List.getElem?_rotate (by rw [hdlen]; exact hi), hdlen,
        List.getElem?_drop]
      have hmem : (i + k) % C < min xs.length C := by
        have := Nat.mod_lt (i + k) hC; omega
      have hslot := addAll_slot C hC xs ((i + k) % C) hmem
      have hidx : (xs.length % C + (C - min xs.length C) + (i + k) % C) % C = i := by
        rw [hmin, Nat.sub_self, Nat.add_zero, Nat.add_mod_mod]
        have hr : xs.length % C < C := Nat.mod_lt _ hC
        rcases eq_or_ne (xs.length % C) 0 with h0 | h0
        · have hk0 : k = 0 := by rw [hk, h0, Nat.sub_zero, Nat.mod_self]
          rw [h0, hk0]
          simp only [Nat.zero_add, Nat.add_zero]
          exact Nat.mod_eq_of_lt hi
        · have hk1 : k = C - xs.length % C := by
            rw [hk]; exact Nat.mod_eq_of_lt (by omega)
          have h2a : xs.length % C + (i + k) = C + i := by omega
          rw [h2a, Nat.add_mod_left]
          exact Nat.mod_eq_of_lt hi
      rw [hidx] at hslot
      exact hslot

/-- C4 amended witness: capacity 2 with three insertions — `get_all` is
the last two items rotated by one, i.e. `[2, 1]`. -/
theorem C4_getAll_witness :
    0 < 2 ∧
    getAll (addAll (erInit ℕ 2) [3, 4, 5]) =
      (if (3 : ℕ) ≤ 2 then [3, 4, 5].map some
       else (([3, 4, 5].drop 1).rotate 1).map some) :=
  ⟨by decide, C4_getAll 2 (by decide) [3, 4, 5]⟩

/-- C10: `reset` only zeroes `_size`, leaving the cursor and the slot
contents unchanged.  Concretely: fill capacity 2 with three items (cursor
ends at 1), `reset`, then add one item (written at slot 1); `get_all` and
the slice `sample` draws from read slots `[0, size) = [0, 1)` and return
only the pre-reset item `12`, omitting the freshly added `99`. -/
theorem C10_reset :
    (∀ s : ERState ℕ, erReset s =
      { capacity := s.capacity, buffer := s.buffer, pointer := s.pointer, size := 0 }) ∧
    (addAll (erInit ℕ 2) [10, 11, 12]).pointer = 1 ∧
    getAll (storeOp (erReset (addAll (erInit ℕ 2) [10, 11, 12])) 99) = [some 12] ∧
    samplePool (storeOp (erReset (addAll (erInit ℕ 2) [10, 11, 12])) 99) = [some 12] ∧
    some 99 ∉ getAll (storeOp (erReset (addAll (erInit ℕ 2) [10, 11, 12])) 99) := by
  refine ⟨fun s => rfl, ?_, ?_, ?_, ?_⟩ <;> decide

/-! ## NStepWrapper (class `NStepWrapper`, method `_per_store`) -/

/-- One transition in the `[s, visual_s, a, r, s_, visual_s_, done]`
layout handled by `_per_store`.  States are abstracted to `ℕ` codes
(the code only compares them for equality), the reward is exact `ℚ`. -/
structure NTrans where
  s : ℕ
  vs : ℕ
  a : ℕ
  r : ℚ
  s_ : ℕ
  vs_ : ℕ
  done : Bool
deriving DecidableEq

/-- One reward/next-state roll of a queued entry:
`q[j][3] += data[3] * gamma ** (_len - j); q[j][4:] = data[4:]`. -/
def rollEntry (gamma : ℚ) (L : ℕ) (d : NTrans) (j : ℕ) (e : NTrans) : NTrans :=
  { e with r := e.r + d.r * gamma ^ (L - j), s_ := d.s_, vs_ := d.vs_, done := d.done }

/-- Positional recursion implementing the `for j in range(_len)` loop. -/
def rollQueueAux (gamma : ℚ) (L : ℕ) (d : NTrans) : ℕ → List NTrans → List NTrans
  | _, [] => []
  | j, e :: es => rollEntry gamma L d j e :: rollQueueAux gamma L d (j + 1) es

/-- The `for j in range(_len)` loop over the whole queue (`_len` is the
queue length before the new transition is appended). -/
def rollQueue (gamma : ℚ) (d : NTrans) (q : List NTrans) : List NTrans :=
  rollQueueAux gamma q.length d 0 q

lemma length_rollQueueAux (gamma : ℚ) (L : ℕ) (d : NTrans) :
    ∀ (j : ℕ) (q : List NTrans), (rollQueueAux gamma L d j q).length = q.length := by
  intro j q
  induction q generalizing j with
  | nil => rfl
  | cons e es ih => simp [rollQueueAux, ih]

lemma length_rollQueue (gamma : ℚ) (d : NTrans) (q : List NTrans) :
    (rollQueue gamma d q).length = q.length :=
  length_rollQueueAux gamma q.length d 0 q

/-- `NStepWrapper._per_store` for one agent: given the current queue and an
incoming transition, return the new queue together with the list of entries
committed to the wrapped buffer, in commit order.  Mirrors the source
line by line: empty queue appends; a discontinuous transition
(`q[-1][4] != data[0]` or `q[-1][5] != data[1]`) commits `q.pop(0)` when
the queue is full else clears it, then appends; a continuous transition
pops-and-commits the oldest when full, rolls every remaining entry,
appends, and on `done` drains the queue with `q.pop()` (newest first). -/
def perStore (gamma : ℚ) (n : ℕ) (q : List NTrans) (d : NTrans) :
    List NTrans × List NTrans :=
  match q with
  | [] => ([d], [])
  | t :: ts =>
    let lastE := (t :: ts).getLastD d
    if lastE.s_ ≠ d.s ∨ lastE.vs_ ≠ d.vs then
      if (t :: ts).length = n then (ts ++ [d], [t]) else ([d], [])
    else
      let qc : List NTrans × List NTrans :=
        if (t :: ts).length = n then (ts, [t]) else (t :: ts, [])
      let q3 := rollQueue gamma d qc.1 ++ [d]
      if d.done then ([], qc.2 ++ q3.reverse) else (q3, qc.2)

/-- Feed a whole single-agent stream through `_per_store`, accumulating the
committed entries in commit order (what `add` does for one agent). -/
def runStream (gamma : ℚ) (n : ℕ) (stream : List NTrans) :
    List NTrans × List NTrans :=
  stream.foldl (fun acc d =>
    ((perStore gamma n acc.1 d).1, acc.2 ++ (perStore gamma n acc.1 d).2)) ([], [])

/-- C1 (code bug evidence): a discontinuous transition arriving while the
queue holds exactly `n = 2` entries commits the oldest entry, but the code
then keeps the remaining pre-discontinuity entry queued and appends the new
transition after it — the resulting queue is not the fresh single-entry
queue the claim (and the code's own comment) requires. -/
theorem C1_discontinuity_eval :
    perStore 1 2 [⟨0, 0, 0, 1, 1, 0, false⟩, ⟨1, 0, 0, 1, 2, 0, false⟩]
        ⟨9, 0, 0, 1, 10, 0, false⟩ =
      ([⟨1, 0, 0, 1, 2, 0, false⟩, ⟨9, 0, 0, 1, 10, 0, false⟩],
        [⟨0, 0, 0, 1, 1, 0, false⟩]) ∧
    ([⟨1, 0, 0, 1, 2, 0, false⟩, ⟨9, 0, 0, 1, 10, 0, false⟩] : List NTrans) ≠
      [⟨9, 0, 0, 1, 10, 0, false⟩] := by
  refine ⟨by norm_num [perStore], by simp⟩

/-- C2 counterexample: a continuous `done` transition arriving at a
2-entry queue (with `n = 3`, `gamma = 1`) flushes via `q.pop()`, so the
committed order is newest-to-oldest — the incoming `done` transition
first — not oldest-to-newest as claimed. -/
theorem C2_counterexample :
    (perStore 1 3 [⟨0, 0, 0, 1, 1, 0, false⟩, ⟨1, 0, 0, 1, 2, 0, false⟩]
        ⟨2, 0, 0, 1, 3, 0, true⟩).2 =
      [⟨2, 0, 0, 1, 3, 0, true⟩, ⟨1, 0, 0, 2, 3, 0, true⟩, ⟨0, 0, 0, 2, 3, 0, true⟩] ∧
    ([⟨2, 0, 0, 1, 3, 0, true⟩, ⟨1, 0, 0, 2, 3, 0, true⟩,
        ⟨0, 0, 0, 2, 3, 0, true⟩] : List NTrans) ≠
      [⟨0, 0, 0, 2, 3, 0, true⟩, ⟨1, 0, 0, 2, 3, 0, true⟩, ⟨2, 0, 0, 1, 3, 0, true⟩] := by
  refine ⟨by norm_num [perStore, rollQueue, rollQueueAux, rollEntry], by simp⟩

/-- C2 amended: when a continuous incoming transition has `done` set, the
queue is left empty and the entire (rolled) queue plus the new transition
is committed, but in newest-to-oldest order: after an optional
oldest-entry commit when the queue was full, the incoming transition is
committed first and the rolled entries follow in reverse queue order.
The committed count is the old queue length plus one. -/
theorem C2_done_flush (gamma : ℚ) (n : ℕ) (t : NTrans) (ts : List NTrans)
    (d : NTrans)
    (hs : ((t :: ts).getLastD d).s_ = d.s)
    (hv : ((t :: ts).getLastD d).vs_ = d.vs)
    (hd : d.done = true) :
    perStore gamma n (t :: ts) d =
      ([], (if (t :: ts).length = n then [t] else []) ++
        d :: (rollQueue gamma d
          (if (t :: ts).length = n then ts else t :: ts)).reverse) ∧
    (perStore gamma n (t :: ts) d).2.length = (t :: ts).length + 1 := by
  have hcond : ¬ (((t :: ts).getLastD d).s_ ≠ d.s ∨ ((t :: ts).getLastD d).vs_ ≠ d.vs) :=
    not_or.mpr ⟨not_ne_iff.mpr hs, not_ne_iff.mpr hv⟩
  have hmain : perStore gamma n (t :: ts) d =
      ([], (if (t :: ts).length = n then [t] else []) ++
        d :: (rollQueue gamma d
          (if (t :: ts).length = n then ts else t :: ts)).reverse) := by
    by_cases hlen : ts.length + 1 = n
    · simp only [perStore]
      rw [if_neg hcond]
      simp [hlen, hd, List.reverse_append]
    · simp only [perStore]
      rw [if_neg hcond]
      simp [hlen, hd, List.reverse_append]
  refine ⟨hmain, ?_⟩
  rw [hmain]
  simp only [List.length_cons]
  by_cases hlen : ts.length + 1 = n
  · simp only [if_pos hlen, List.length_append, List.length_singleton,
      List.length_cons, List.length_nil, List.length_reverse, length_rollQueue]
    omega
  · simp only [if_neg hlen, List.nil_append, List.length_cons,
      List.length_reverse, length_rollQueue]

/-- C2 amended witness: a singleton continuous queue plus a `done`
transition flushes the new transition first, then the rolled old entry. -/
theorem C2_done_flush_witness :
    (([⟨0, 0, 0, 1, 1, 0, false⟩] : List NTrans).getLastD ⟨1, 0, 0, 1, 2, 0, true⟩).s_ =
        (⟨1, 0, 0, 1, 2, 0, true⟩ : NTrans).s ∧
    (([⟨0, 0, 0, 1, 1, 0, false⟩] : List NTrans).getLastD ⟨1, 0, 0, 1, 2, 0, true⟩).vs_ =
        (⟨1, 0, 0, 1, 2, 0, true⟩ : NTrans).vs ∧
    (perStore 1 5 [⟨0, 0, 0, 1, 1, 0, false⟩] ⟨1, 0, 0, 1, 2, 0, true⟩ =
      ([], [⟨1, 0, 0, 1, 2, 0, true⟩, ⟨0, 0, 0, 2, 2, 0, true⟩]) ∧
      (perStore 1 5 [⟨0, 0, 0, 1, 1, 0, false⟩] ⟨1, 0, 0, 1, 2, 0, true⟩).2.length = 2) := by
  refine ⟨by simp, by simp, ?_⟩
  have h := C2_done_flush 1 5 ⟨0, 0, 0, 1, 1, 0, false⟩ [] ⟨1, 0, 0, 1, 2, 0, true⟩
    (by simp) (by simp) (by simp)
  refine ⟨?_, ?_⟩
  · rw [h.1]
    norm_num [rollQueue, rollQueueAux, rollEntry]
  · rw [h.2]
    simp

/-- C3: a single-agent stream of five consecutive continuous unit-reward
transitions (`gamma = 0.9`, `n = 3`, only the fifth `done`).  The first
committed transition carries reward `1 + 0.9 + 0.81 = 2.71` and next-state
`4 = 1 + 3` (the state three environment steps after its own), and the
terminal flush commits the remaining entries with exactly their observed
discounted reward sums (`1`, `1.9`, `2.71`) — no future reward is
fabricated. -/
theorem C3_concrete :
    runStream (9/10) 3
      [⟨1, 0, 0, 1, 2, 0, false⟩, ⟨2, 0, 0, 1, 3, 0, false⟩,
       ⟨3, 0, 0, 1, 4, 0, false⟩, ⟨4, 0, 0, 1, 5, 0, false⟩,
       ⟨5, 0, 0, 1, 6, 0, true⟩] =
      ([], [⟨1, 0, 0, 271/100, 4, 0, false⟩, ⟨2, 0, 0, 271/100, 5, 0, false⟩,
            ⟨5, 0, 0, 1, 6, 0, true⟩, ⟨4, 0, 0, 19/10, 6, 0, true⟩,
            ⟨3, 0, 0, 271/100, 6, 0, true⟩]) ∧
    (271/100 : ℚ) = 1 + 9/10 + (9/10) * (9/10) ∧
    (19/10 : ℚ) = 1 + 9/10 := by
  refine ⟨?_, by norm_num, by norm_num⟩
  norm_num [runStream, perStore, rollQueue, rollQueueAux, rollEntry]

/-! ## EpisodeExperienceReplay (method `sample`) -/

/-- One stored step of an episode trajectory, in the
`[s, visual_s, a, r, s_, visual_s_, done]` layout.  All fields are the
`float32` scalars `tf.keras...pad_sequences` operates on, modelled as
`ℚ` (`done` is stored as a 0/1 float after padding). -/
structure EStep where
  s : ℚ
  vs : ℚ
  a : ℚ
  r : ℚ
  s_ : ℚ
  vs_ : ℚ
  done : ℚ
deriving DecidableEq

/-- The `truncate` closure in `sample`: `traj[idx : idx + timestep]`. -/
def truncateTraj (W : ℕ) (traj : List EStep) (idx : ℕ) : List EStep :=
  (traj.drop idx).take W

/-- `pad_sequences(..., padding='pre', value=v, maxlen=W)` on one scalar
field sequence of length at most `W`. -/
def padPre (W : ℕ) (v : ℚ) (xs : List ℚ) : List ℚ :=
  List.replicate (W - xs.length) v ++ xs

/-- The exclusive bound `max(1, len(traj) - timestep + 1)` that
`np.random.randint` draws the window start from. -/
def idxBound (W L : ℕ) : ℕ := max 1 (L - W + 1)

/-- The seven padded per-field sequences `sample` builds for one sampled
trajectory window: fields `0..5` are padded with `0`, the `done` field
(index 6) with `1`. -/
def sampleWindow (W : ℕ) (traj : List EStep) (idx : ℕ) : List (List ℚ) :=
  [padPre W 0 ((truncateTraj W traj idx).map EStep.s),
   padPre W 0 ((truncateTraj W traj idx).map EStep.vs),
   padPre W 0 ((truncateTraj W traj idx).map EStep.a),
   padPre W 0 ((truncateTraj W traj idx).map EStep.r),
   padPre W 0 ((truncateTraj W traj idx).map EStep.s_),
   padPre W 0 ((truncateTraj W traj idx).map EStep.vs_),
   padPre W 1 ((truncateTraj W traj idx).map EStep.done)]

lemma truncateTraj_len_le (W : ℕ) (traj : List EStep) (idx : ℕ) :
    (truncateTraj W traj idx).length ≤ W := by
  simp [truncateTraj]

lemma padPre_length (W : ℕ) (v : ℚ) (xs : List ℚ) (h : xs.length ≤ W) :
    (padPre W v xs).length = W := by
  simp [padPre]; omega

/-- C8: for any trajectory and any window start `idx` in
`[0, max(1, L - W + 1))`, every one of the seven padded field sequences
has length exactly `W`; the window is the whole trajectory when `L < W`
and an exact length-`W` contiguous slice when `L ≥ W`; short windows are
padded on the left, with `1` for the `done` field (index 6) and `0` for
all other fields. -/
theorem C8_window (W : ℕ) (traj : List EStep) (idx : ℕ)
    (hidx : idx < idxBound W traj.length) :
    (∀ l ∈ sampleWindow W traj idx, l.length = W) ∧
    (W ≤ traj.length → (truncateTraj W traj idx).length = W) ∧
    (traj.length < W → truncateTraj W traj idx = traj) ∧
    ((padPre W 1 ((truncateTraj W traj idx).map EStep.done)).take
        (W - (truncateTraj W traj idx).length) =
      List.replicate (W - (truncateTraj W traj idx).length) 1) ∧
    (∀ f ∈ ([EStep.s, EStep.vs, EStep.a, EStep.r, EStep.s_, EStep.vs_] :
        List (EStep → ℚ)),
      (padPre W 0 ((truncateTraj W traj idx).map f)).take
          (W - (truncateTraj W traj idx).length) =
        List.replicate (W - (truncateTraj W traj idx).length) 0) := by
  have hlen : ∀ f : EStep → ℚ, ((truncateTraj W traj idx).map f).length ≤ W := by
    intro f
    simpa using truncateTraj_len_le W traj idx
  have hmaplen : ∀ f : EStep → ℚ,
      ((truncateTraj W traj idx).map f).length = (truncateTraj W traj idx).length := by
    intro f; simp
  have hpad : ∀ (v : ℚ) (f : EStep → ℚ),
      (padPre W v ((truncateTraj W traj idx).map f)).take
          (W - (truncateTraj W traj idx).length) =
        List.replicate (W - (truncateTraj W traj idx).length) v := by
    intro v f
    unfold padPre
    rw [hmaplen, List.take_append_of_le_length (by simp),
      List.take_replicate, min_self]
  refine ⟨?_, ?_, ?_, hpad 1 EStep.done, fun f _ => hpad 0 f⟩
  · intro l hl
    simp only [sampleWindow, List.mem_cons, List.not_mem_nil, or_false] at hl
    rcases hl with h | h | h | h | h | h | h <;>
      (rw [h]; exact padPre_length _ _ _ (hlen _))
  · intro hW
    have h1 : idx + W ≤ traj.length := by
      have : idxBound W traj.length = traj.length - W + 1 := by
        unfold idxBound; omega
      omega
    simp [truncateTraj]
    omega
  · intro hW
    have hidx0 : idx = 0 := by
      have : idxBound W traj.length = 1 := by unfold idxBound; omega
      omega
    rw [hidx0]
    unfold truncateTraj
    rw [List.drop_zero]
    exact List.take_of_length_le (by omega)

/-- A length-7 trajectory used to witness C8. -/
def trajSeven : List EStep :=
  [⟨0, 0, 0, 0, 1, 0, 0⟩, ⟨1, 0, 0, 0, 2, 0, 0⟩, ⟨2, 0, 0, 0, 3, 0, 0⟩,
   ⟨3, 0, 0, 0, 4, 0, 0⟩, ⟨4, 0, 0, 0, 5, 0, 0⟩, ⟨5, 0, 0, 0, 6, 0, 0⟩,
   ⟨6, 0, 0, 0, 7, 0, 1⟩]

/-- C8 witness: the length-7 trajectory with `W = 5` (burn-in 2 plus
train 3) and window start 2 (inside `[0, max(1, 7 - 5 + 1)) = [0, 3)`). -/
theorem C8_window_witness :
    2 < idxBound 5 trajSeven.length ∧
    ((∀ l ∈ sampleWindow 5 trajSeven 2, l.length = 5) ∧
      (5 ≤ trajSeven.length → (truncateTraj 5 trajSeven 2).length = 5) ∧
      (trajSeven.length < 5 → truncateTraj 5 trajSeven 2 = trajSeven) ∧
      ((padPre 5 1 ((truncateTraj 5 trajSeven 2).map EStep.done)).take
          (5 - (truncateTraj 5 trajSeven 2).length) =
        List.replicate (5 - (truncateTraj 5 trajSeven 2).length) 1) ∧
      (∀ f ∈ ([EStep.s, EStep.vs, EStep.a, EStep.r, EStep.s_, EStep.vs_] :
          List (EStep → ℚ)),
        (padPre 5 0 ((truncateTraj 5 trajSeven 2).map f)).take
            (5 - (truncateTraj 5 trajSeven 2).length) =
          List.replicate (5 - (truncateTraj 5 trajSeven 2).length) 0)) :=
  ⟨by simp [idxBound, trajSeven], C8_window 5 trajSeven 2 (by simp [idxBound, trajSeven])⟩

/-! ## PrioritizedExperienceReplay: constructor validation -/

/-- The arguments of `PrioritizedExperienceReplay.__init__`. -/
structure PERArgs where
  batch_size : ℤ
  capacity : ℤ
  max_train_step : ℤ
  alpha : ℚ
  beta : ℚ
  epsilon : ℚ
  global_v : Bool

/-- `PrioritizedExperienceReplay.__init__` runs to completion: the
`ReplayBuffer` asserts check `batch_size >= 0` and `capacity >= 0` (their
messages say "larger than 0" but the comparisons are non-strict), the
subclass asserts `epsilon > 0`, and `beta_interval = (1 - beta) /
max_train_step` raises `ZeroDivisionError` when `max_train_step = 0`.
`alpha` and `beta` are never validated.  `Sum_Tree(capacity)` is assumed
to construct for `capacity ≥ 1` (its file is not among the sources). -/
def perConstructs (a : PERArgs) : Prop :=
  0 ≤ a.batch_size ∧ 0 ≤ a.capacity ∧ 0 < a.epsilon ∧ a.max_train_step ≠ 0

/-- C5 counterexample: `alpha = 2` lies outside `[0, 1]`, yet construction
with `batch_size = 1`, `capacity = 1`, `max_train_step = 1`,
`epsilon = 1` succeeds — no `alpha` validation exists, so the claimed
fail-fast behaviour does not hold. -/
theorem C5_counterexample :
    perConstructs ⟨1, 1, 1, 2, 1/2, 1, false⟩ ∧
    (⟨1, 1, 1, 2, 1/2, 1, false⟩ : PERArgs).alpha = 2 ∧
    ¬ ((0 : ℚ) ≤ 2 ∧ (2 : ℚ) ≤ 1) := by
  refine ⟨?_, rfl, by norm_num⟩
  unfold perConstructs
  refine ⟨by norm_num, by norm_num, by norm_num, by norm_num⟩

/-- C5 amended: for `capacity ≥ 1`, construction fails exactly when
`batch_size < 0`, `epsilon ≤ 0`, or `max_train_step = 0` (assertion or
division error); `alpha` outside `[0, 1]` is accepted, and negative
`capacity` fails the `capacity >= 0` assert. -/
theorem C5_validation (a : PERArgs) (hcap : 1 ≤ a.capacity) :
    perConstructs a ↔
      (0 ≤ a.batch_size ∧ 0 < a.epsilon ∧ a.max_train_step ≠ 0) := by
  unfold perConstructs
  constructor
  · rintro ⟨h1, _, h3, h4⟩
    exact ⟨h1, h3, h4⟩
  · rintro ⟨h1, h3, h4⟩
    exact ⟨h1, by omega, h3, h4⟩

/-- C5 amended witness at a concrete argument tuple. -/
theorem C5_validation_witness :
    1 ≤ (⟨2, 3, 5, 7/2, 1/2, 1, true⟩ : PERArgs).capacity ∧
    (perConstructs ⟨2, 3, 5, 7/2, 1/2, 1, true⟩ ↔
      (0 ≤ (⟨2, 3, 5, 7/2, 1/2, 1, true⟩ : PERArgs).batch_size ∧
        0 < (⟨2, 3, 5, 7/2, 1/2, 1, true⟩ : PERArgs).epsilon ∧
        (⟨2, 3, 5, 7/2, 1/2, 1, true⟩ : PERArgs).max_train_step ≠ 0)) :=
  ⟨by norm_num, C5_validation ⟨2, 3, 5, 7/2, 1/2, 1, true⟩ (by norm_num)⟩

/-! ## PrioritizedExperienceReplay: priorities, beta annealing, weights

The priority values go through `np.power` with a real exponent `alpha`,
so this part of the model lives in `ℝ`.  The sum tree state is the leaf
priority array plus its write cursor; `Sum_Tree` itself
(`rls/memories/sum_tree.py`) is not among the provided sources, so its
tree descent is modelled from the spec where marked. -/

noncomputable section
open scoped Classical

/-- Construction-time configuration of a `PrioritizedExperienceReplay`. -/
structure PERConfig where
  capacity : ℕ
  alpha : ℝ
  beta0 : ℝ
  epsilon : ℝ
  mts : ℝ
  global_v : Bool

/-- Mutable state: sum-tree leaf priorities (`leaves`, only indices below
`size` are live) with the tree write cursor `tptr`, the live count
`_size`, the running trackers `min_p` (`none` models the `sys.maxsize`
sentinel, i.e. never set) and `max_p`, and the annealed `beta`. -/
structure PERState where
  leaves : ℕ → ℝ
  size : ℕ
  tptr : ℕ
  min_p : Option ℝ
  max_p : ℝ
  beta : ℝ

/-- State after `__init__` / `reset`: empty tree, `min_p` unset,
`max_p = epsilon ** alpha`, `beta` back to its initial value. -/
def perInitState (cfg : PERConfig) : PERState :=
  { leaves := fun _ => 0, size := 0, tptr := 0, min_p := none,
    max_p := cfg.epsilon ^ cfg.alpha, beta := cfg.beta0 }

/-- `np.power(np.abs(td_error) + epsilon, alpha)` applied to one error. -/
def perPrio (cfg : PERConfig) (e : ℝ) : ℝ := (|e| + cfg.epsilon) ^ cfg.alpha

/-- `_store_op` / one item of `add_batch`: `tree.add(max_p, data)` writes
the current `max_p` at the tree cursor, advances it cyclically (modelled
from the spec: the `Sum_Tree` leaf cursor mirrors the store cursor), and
`size` grows saturating at `capacity`. -/
def perAdd (cfg : PERConfig) (st : PERState) : PERState :=
  { st with
    leaves := Function.update st.leaves st.tptr st.max_p,
    tptr := (st.tptr + 1) % cfg.capacity,
    size := min (st.size + 1) cfg.capacity }

/-- `np.min` over a nonempty array (0 on the empty array, which the code
never reaches). -/
def listMin : List ℝ → ℝ
  | [] => 0
  | x :: xs => xs.foldl min x

/-- `np.max` over a nonempty array. -/
def listMax : List ℝ → ℝ
  | [] => 0
  | x :: xs => xs.foldl max x

/-- `update(priority, index)`: recompute priorities via `perPrio`, write
them back at the given leaf indices, fold the new minimum/maximum into
`min_p`/`max_p`, and advance
`beta ← min(beta + (1 - beta_init) / max_train_step, 1)` — once per call,
independent of how many priorities are passed. -/
def perUpdate (cfg : PERConfig) (st : PERState) (errs : List ℝ)
    (idxs : List ℕ) : PERState :=
  { st with
    leaves := (idxs.zip (errs.map (perPrio cfg))).foldl
      (fun g q => Function.update g q.1 q.2) st.leaves,
    min_p := some (match st.min_p with
      | none => listMin (errs.map (perPrio cfg))
      | some m => min m (listMin (errs.map (perPrio cfg)))),
    max_p := max st.max_p (listMax (errs.map (perPrio cfg))),
    beta := min (st.beta + (1 - cfg.beta0) / cfg.mts) 1 }

/-- States reachable from construction by `add` (single item or any
batch, which `add_batch` performs item-wise at the current `max_p`),
`update` with sampled (live) indices and a matching nonempty priority
array, and `reset`. -/
inductive perReachable (cfg : PERConfig) : PERState → Prop where
  | init : perReachable cfg (perInitState cfg)
  | add {st : PERState} : perReachable cfg st → perReachable cfg (perAdd cfg st)
  | upd {st : PERState} (errs : List ℝ) (idxs : List ℕ) :
      perReachable cfg st → errs ≠ [] → idxs.length = errs.length →
      (∀ i ∈ idxs, i < st.size) → perReachable cfg (perUpdate cfg st errs idxs)
  | reset {st : PERState} : perReachable cfg st → perReachable cfg (perInitState cfg)

/-- Valid constructor arguments: positive capacity and epsilon,
`beta_init ∈ [0, 1]`, positive `max_train_step`. -/
structure perValidCfg (cfg : PERConfig) : Prop where
  cap_pos : 0 < cfg.capacity
  eps_pos : 0 < cfg.epsilon
  beta0_nonneg : 0 ≤ cfg.beta0
  beta0_le_one : cfg.beta0 ≤ 1
  mts_pos : 0 < cfg.mts

/-- Invariant maintained by every reachable state. -/
structure perInv (cfg : PERConfig) (st : PERState) : Prop where
  size_le : st.size ≤ cfg.capacity
  tptr_lt : st.tptr < cfg.capacity
  tptr_eq : st.size < cfg.capacity → st.tptr = st.size
  live_pos : ∀ i < st.size, 0 < st.leaves i
  dead_zero : ∀ i, st.size ≤ i → st.leaves i = 0
  maxp_pos : 0 < st.max_p
  minp_pos : ∀ m, st.min_p = some m → 0 < m
  beta_lb : cfg.beta0 ≤ st.beta
  beta_ub : st.beta ≤ 1

lemma foldl_min_le (xs : List ℝ) (a : ℝ) :
    xs.foldl min a ≤ a ∧ ∀ y ∈ xs, xs.foldl min a ≤ y := by
  induction xs generalizing a with
  | nil => exact ⟨le_refl a, by simp⟩
  | cons x xs ih =>
    obtain ⟨h1, h2⟩ := ih (min a x)
    refine ⟨h1.trans (min_le_left a x), ?_⟩
    intro y hy
    rcases List.mem_cons.mp hy with rfl | hy
    · exact h1.trans (min_le_right a y)
    · exact h2 y hy

lemma foldl_min_pos (xs : List ℝ) (a : ℝ) (ha : 0 < a)
    (hx : ∀ y ∈ xs, 0 < y) : 0 < xs.foldl min a := by
  induction xs generalizing a with
  | nil => exact ha
  | cons x xs ih =>
    exact ih (min a x) (lt_min ha (hx x (by simp)))
      (fun y hy => hx y (List.mem_cons_of_mem x hy))

lemma listMin_le {l : List ℝ} {y : ℝ} (h : y ∈ l) : listMin l ≤ y := by
  match l with
  | [] => simp at h
  | x :: xs =>
    rcases List.mem_cons.mp h with rfl | hm
    · exact (foldl_min_le xs y).1
    · exact (foldl_min_le xs x).2 y hm

lemma listMin_pos {l : List ℝ} (hne : l ≠ []) (h : ∀ y ∈ l, 0 < y) :
    0 < listMin l := by
  match l with
  | [] => exact absurd rfl hne
  | x :: xs =>
    exact foldl_min_pos xs x (h x (by simp))
      (fun y hy => h y (List.mem_cons_of_mem x hy))

lemma foldl_update_eq_or_mem (pairs : List (ℕ × ℝ)) (f : ℕ → ℝ) (j : ℕ) :
    (pairs.foldl (fun g q => Function.update g q.1 q.2) f) j = f j ∨
      ∃ q ∈ pairs, (pairs.foldl (fun g q => Function.update g q.1 q.2) f) j = q.2 := by
  induction pairs generalizing f with
  | nil => exact Or.inl rfl
  | cons p ps ih =>
    rcases ih (Function.update f p.1 p.2) with h | ⟨q, hq, h⟩
    · by_cases hj : j = p.1
      · subst hj
        right
        refine ⟨p, List.mem_cons_self p ps, ?_⟩
        simp only [List.foldl_cons]
        rw [h, Function.update_same]
      · left
        simp only [List.foldl_cons]
        rw [h, Function.update_noteq hj]
    · right
      exact ⟨q, List.mem_cons_of_mem p hq, by simp only [List.foldl_cons]; exact h⟩

lemma foldl_update_not_mem (pairs : List (ℕ × ℝ)) (f : ℕ → ℝ) (j : ℕ)
    (h : ∀ q ∈ pairs, q.1 ≠ j) :
    (pairs.foldl (fun g q => Function.update g q.1 q.2) f) j = f j := by
  induction pairs generalizing f with
  | nil => rfl
  | cons p ps ih =>
    simp only [List.foldl_cons]
    rw [ih _ (fun q hq => h q (List.mem_cons_of_mem p hq)),
      Function.update_noteq (h p (List.mem_cons_self p ps)).symm]

lemma perInv_init (cfg : PERConfig) (hv : perValidCfg cfg) :
    perInv cfg (perInitState cfg) := by
  refine ⟨Nat.zero_le _, hv.cap_pos, fun _ => rfl, ?_, fun _ _ => rfl,
    Real.rpow_pos_of_pos hv.eps_pos _, ?_, le_refl _, hv.beta0_le_one⟩
  · intro i hi
    exact absurd hi (Nat.not_lt_zero i)
  · intro m hm
    simp [perInitState] at hm

lemma perInv_add (cfg : PERConfig) {st : PERState} (hv : perValidCfg cfg)
    (h : perInv cfg st) : perInv cfg (perAdd cfg st) := by
  obtain ⟨hsl, htl, hte, hlp, hdz, hmp, hminp, hbl, hbu⟩ := h
  have hCpos := hv.cap_pos
  refine ⟨min_le_right _ _, Nat.mod_lt _ hCpos, ?_, ?_, ?_, hmp, hminp, hbl, hbu⟩
  · intro hlt
    simp only [perAdd] at hlt ⊢
    have hsc : st.size < cfg.capacity := by omega
    have ht := hte hsc
    rw [ht]
    rw [Nat.mod_eq_of_lt (by omega)]
    omega
  · intro i hi
    simp only [perAdd] at hi ⊢
    by_cases hit : i = st.tptr
    · subst hit
      rw [Function.update_same]
      exact hmp
    · rw [Function.update_noteq hit]
      apply hlp
      rcases Nat.lt_or_ge st.size cfg.capacity with hsc | hsc
      · have := hte hsc; omega
      · omega
  · intro i hi
    simp only [perAdd] at hi ⊢
    have hit : i ≠ st.tptr := by
      rcases Nat.lt_or_ge st.size cfg.capacity with hsc | hsc
      · have := hte hsc; omega
      · omega
    rw [Function.update_noteq hit]
    apply hdz
    omega

lemma perInv_update (cfg : PERConfig) {st : PERState} (hv : perValidCfg cfg)
    (errs : List ℝ) (idxs : List ℕ) (h : perInv cfg st) (hne : errs ≠ [])
    (hidx : ∀ i ∈ idxs, i < st.size) :
    perInv cfg (perUpdate cfg st errs idxs) := by
  obtain ⟨hsl, htl, hte, hlp, hdz, hmp, hminp, hbl, hbu⟩ := h
  have hps_ne : errs.map (perPrio cfg) ≠ [] := by
    intro hc
    exact hne (List.map_eq_nil_iff.mp hc)
  have hps_pos : ∀ p ∈ errs.map (perPrio cfg), 0 < p := by
    intro p hp
    rcases List.mem_map.mp hp with ⟨e, _, rfl⟩
    exact Real.rpow_pos_of_pos
      (add_pos_of_nonneg_of_pos (abs_nonneg e) hv.eps_pos) _
  have hzip : ∀ q ∈ idxs.zip (errs.map (perPrio cfg)),
      q.1 < st.size ∧ 0 < q.2 := by
    intro q hq
    obtain ⟨hq1, hq2⟩ := List.of_mem_zip hq
    exact ⟨hidx _ hq1, hps_pos _ hq2⟩
  refine ⟨hsl, htl, hte, ?_, ?_, lt_max_iff.mpr (Or.inl hmp), ?_, ?_, min_le_right _ _⟩
  · intro i hi
    simp only [perUpdate] at hi ⊢
    rcases foldl_update_eq_or_mem (idxs.zip (errs.map (perPrio cfg))) st.leaves i
      with heq | ⟨q, hq, heq⟩
    · rw [heq]; exact hlp i hi
    · rw [heq]; exact (hzip q hq).2
  · intro i hi
    simp only [perUpdate] at hi ⊢
    rw [foldl_update_not_mem _ _ _ (fun q hq => by
      have := (hzip q hq).1; omega)]
    exact hdz i hi
  · intro m hm
    have hpsmin : 0 < listMin (errs.map (perPrio cfg)) :=
      listMin_pos hps_ne hps_pos
    cases hmp2 : st.min_p with
    | none =>
      simp only [perUpdate, hmp2, Option.some.injEq] at hm
      exact hm ▸ hpsmin
    | some m0 =>
      simp only [perUpdate, hmp2, Option.some.injEq] at hm
      exact hm ▸ lt_min (hminp m0 hmp2) hpsmin
  · exact le_min (le_add_of_le_of_nonneg hbl
      (div_nonneg (by linarith [hv.beta0_le_one]) hv.mts_pos.le)) hv.beta0_le_one

lemma perInv_of_reachable (cfg : PERConfig) (hv : perValidCfg cfg)
    {st : PERState} (h : perReachable cfg st) : perInv cfg st := by
  induction h with
  | init => exact perInv_init cfg hv
  | add _ ih => exact perInv_add cfg hv ih
  | upd errs idxs _ hne _ hidx ih => exact perInv_update cfg hv errs idxs ih hne hidx
  | reset _ _ => exact perInv_init cfg hv

/-- Prefix mass of the leaves up to index `i` inclusive.  Modelled from
the spec: `sum_tree.py` is not among the sources; the spec's internal
nodes cache exactly these partial sums of the leaves. -/
def sumTo (leaves : ℕ → ℝ) (i : ℕ) : ℝ := ∑ j ∈ Finset.range (i + 1), leaves j

/-- `tree.total`: the root value, i.e. the total leaf mass.  Modelled
from the spec (the root equals the sum over all leaves). -/
def perTotal (cfg : PERConfig) (st : PERState) : ℝ :=
  ∑ j ∈ Finset.range cfg.capacity, st.leaves j

/-- Inverse-CDF leaf lookup.  Modelled from the spec: the descent "go
left if `value ≤ left_subtree_sum`, else subtract and go right" resolves
a value `v` to the leftmost leaf whose inclusive prefix sum reaches `v`. -/
def resolveLeaf (C : ℕ) (leaves : ℕ → ℝ) (v : ℝ) : ℕ :=
  if h : ∃ i, v ≤ sumTo leaves i then Nat.find h else C - 1

/-- The priorities `p` returned by `tree.get_batch_parallel(ps)` for the
drawn values `vs`. -/
def samplePs (cfg : PERConfig) (st : PERState) (vs : List ℝ) : List ℝ :=
  vs.map fun v => st.leaves (resolveLeaf cfg.capacity st.leaves v)

/-- `_min_p = self.min_p if self.global_v and self.min_p < sys.maxsize
else p.min()`. -/
def minRef (cfg : PERConfig) (st : PERState) (ps : List ℝ) : ℝ :=
  match st.min_p with
  | some m => if cfg.global_v then m else listMin ps
  | none => listMin ps

/-- `self.IS_w = np.power(_min_p / p, self.beta)` for one `sample` call
with drawn stratum values `vs`. -/
def sampleWeights (cfg : PERConfig) (st : PERState) (vs : List ℝ) : List ℝ :=
  (samplePs cfg st vs).map fun p =>
    (minRef cfg st (samplePs cfg st vs) / p) ^ st.beta

lemma resolveLeaf_lt_size (cfg : PERConfig) (st : PERState)
    (h : perInv cfg st) (hs : 0 < st.size) {v : ℝ}
    (hv : v < perTotal cfg st) :
    resolveLeaf cfg.capacity st.leaves v < st.size := by
  have htot : perTotal cfg st = sumTo st.leaves (st.size - 1) := by
    unfold perTotal sumTo
    have h1 : st.size - 1 + 1 = st.size := by omega
    rw [h1]
    exact (Finset.sum_subset (Finset.range_subset.mpr h.size_le)
      (fun x _ hnx => h.dead_zero x (by simp at hnx; omega))).symm
  have hex : ∃ i, v ≤ sumTo st.leaves i :=
    ⟨st.size - 1, by rw [← htot]; exact hv.le⟩
  unfold resolveLeaf
  rw [dif_pos hex]
  have hle : Nat.find hex ≤ st.size - 1 :=
    Nat.find_min' hex (by rw [← htot]; exact hv.le)
  omega

/-- C6 amended: over every reachable buffer state from a valid
configuration, in batch-min mode — global mode disabled, or the global
`min_p` never set — every importance weight computed by `sample` from
in-range stratum draws satisfies `0 < w ≤ 1`.  (In global mode with
`min_p` set the bound can fail; see the counterexample.) -/
theorem C6_weights (cfg : PERConfig) (hcfg : perValidCfg cfg)
    (st : PERState) (hst : perReachable cfg st) (hsz : 0 < st.size)
    (hmode : cfg.global_v = false ∨ st.min_p = none)
    (vs : List ℝ) (hne : vs ≠ [])
    (hvs : ∀ v ∈ vs, 0 ≤ v ∧ v < perTotal cfg st) :
    ∀ w ∈ sampleWeights cfg st vs, 0 < w ∧ w ≤ 1 := by
  have hinv := perInv_of_reachable cfg hcfg hst
  have hps_pos : ∀ p ∈ samplePs cfg st vs, 0 < p := by
    intro p hp
    rcases List.mem_map.mp hp with ⟨v, hv, rfl⟩
    exact hinv.live_pos _ (resolveLeaf_lt_size cfg st hinv hsz (hvs v hv).2)
  have hps_ne : samplePs cfg st vs ≠ [] := by
    intro hc
    exact hne (List.map_eq_nil_iff.mp hc)
  have hmin_eq : minRef cfg st (samplePs cfg st vs) =
      listMin (samplePs cfg st vs) := by
    unfold minRef
    rcases hmode with hg | hm
    · cases hmp : st.min_p with
      | none => rfl
      | some m => simp [hg]
    · rw [hm]
  have hmin_pos : 0 < listMin (samplePs cfg st vs) :=
    listMin_pos hps_ne hps_pos
  intro w hw
  rcases List.mem_map.mp hw with ⟨p, hp, rfl⟩
  have hppos := hps_pos p hp
  have hle : listMin (samplePs cfg st vs) ≤ p := listMin_le hp
  rw [hmin_eq]
  constructor
  · exact Real.rpow_pos_of_pos (div_pos hmin_pos hppos) _
  · exact Real.rpow_le_one (le_of_lt (div_pos hmin_pos hppos))
      ((div_le_one hppos).mpr hle) (hcfg.beta0_nonneg.trans hinv.beta_lb)

/-- Configuration used in the C6 witness: capacity 1, `alpha = 1`,
`beta_init = 1/2`, `epsilon = 1`, `max_train_step = 1`, global mode off. -/
def cfgW : PERConfig := ⟨1, 1, 1/2, 1, 1, false⟩

/-- Witness state: one insertion into a fresh buffer. -/
def stW : PERState := perAdd cfgW (perInitState cfgW)

lemma perTotal_cfgW : perTotal cfgW stW = 1 := by
  unfold perTotal
  rw [show cfgW.capacity = 1 from rfl, Finset.sum_range_one]
  simp [stW, perAdd, perInitState, Function.update_apply, cfgW, Real.one_rpow]

/-- C6 amended witness: a freshly filled one-slot buffer in batch-min
mode; the single weight drawn at stratum value 0 lies in `(0, 1]`. -/
theorem C6_weights_witness :
    (0 : ℝ) < perTotal cfgW stW ∧
    ∀ w ∈ sampleWeights cfgW stW [0], 0 < w ∧ w ≤ 1 := by
  refine ⟨by rw [perTotal_cfgW]; norm_num, ?_⟩
  exact C6_weights cfgW
    ⟨by norm_num [cfgW], by norm_num [cfgW], by norm_num [cfgW],
      by norm_num [cfgW], by norm_num [cfgW]⟩
    stW (.add .init) (by simp [stW, perAdd, perInitState, cfgW]) (Or.inl rfl) [0]
    (by simp)
    (by
      intro v hv
      rw [List.mem_singleton] at hv
      subst hv
      exact ⟨le_refl 0, by rw [perTotal_cfgW]; norm_num⟩)

/-- Configuration used in the C6 counterexample: capacity 2, `alpha = 1`,
`beta_init = 1`, `epsilon = 1`, `max_train_step = 1`, global mode ON. -/
def cfgCex : PERConfig := ⟨2, 1, 1, 1, 1, true⟩

/-- Counterexample state: two insertions (both at the initial
`max_p = 1`), then one `update` with raw error 9 at leaf 0, which sets
the global `min_p` to 10 while leaf 1 still holds priority 1. -/
def stCex : PERState :=
  perUpdate cfgCex (perAdd cfgCex (perAdd cfgCex (perInitState cfgCex))) [9] [0]

lemma perPrio_cfgCex : perPrio cfgCex 9 = 10 := by
  unfold perPrio
  rw [show cfgCex.epsilon = 1 from rfl, show cfgCex.alpha = 1 from rfl,
    abs_of_nonneg (by norm_num : (0:ℝ) ≤ 9),
    show (9:ℝ) + 1 = 10 by norm_num, Real.rpow_one]

lemma stCex_leaves_zero : stCex.leaves 0 = 10 := by
  simp only [stCex, perUpdate, List.map_cons, List.map_nil, List.zip_cons_cons,
    List.zip_nil_right, List.foldl_cons, List.foldl_nil]
  rw [Function.update_same, perPrio_cfgCex]

lemma stCex_leaves_one : stCex.leaves 1 = 1 := by
  simp only [stCex, perUpdate, List.map_cons, List.map_nil, List.zip_cons_cons,
    List.zip_nil_right, List.foldl_cons, List.foldl_nil]
  rw [Function.update_noteq (by norm_num : (1:ℕ) ≠ 0)]
  simp [perAdd, perInitState, Function.update_apply, cfgCex, Real.one_rpow]

lemma stCex_total : perTotal cfgCex stCex = 11 := by
  unfold perTotal
  rw [show cfgCex.capacity = 2 from rfl, Finset.sum_range_succ,
    Finset.sum_range_one, stCex_leaves_zero, stCex_leaves_one]
  norm_num

lemma stCex_min_p : stCex.min_p = some 10 := by
  have hmp : (perAdd cfgCex (perAdd cfgCex (perInitState cfgCex))).min_p = none := by
    simp [perAdd, perInitState]
  simp only [stCex, perUpdate, hmp, List.map_cons, List.map_nil]
  rw [show listMin [perPrio cfgCex 9] = perPrio cfgCex 9 from rfl, perPrio_cfgCex]

lemma stCex_beta : stCex.beta = 1 := by
  have hb : (perAdd cfgCex (perAdd cfgCex (perInitState cfgCex))).beta = 1 := by
    simp [perAdd, perInitState, cfgCex]
  simp only [stCex, perUpdate, hb]
  rw [show cfgCex.beta0 = 1 from rfl, show cfgCex.mts = 1 from rfl]
  norm_num

lemma stCex_resolve : resolveLeaf cfgCex.capacity stCex.leaves (21/2) = 1 := by
  have hsum0 : sumTo stCex.leaves 0 = 10 := by
    unfold sumTo
    rw [Finset.sum_range_one, stCex_leaves_zero]
  have hsum1 : sumTo stCex.leaves 1 = 11 := by
    unfold sumTo
    rw [Finset.sum_range_succ, Finset.sum_range_one, stCex_leaves_zero,
      stCex_leaves_one]
    norm_num
  have hex : ∃ i, (21/2 : ℝ) ≤ sumTo stCex.leaves i :=
    ⟨1, by rw [hsum1]; norm_num⟩
  unfold resolveLeaf
  rw [dif_pos hex, Nat.find_eq_iff]
  refine ⟨by rw [hsum1]; norm_num, ?_⟩
  intro m hm
  have hm0 : m = 0 := by omega
  subst hm0
  rw [hsum0]
  norm_num

lemma stCex_weights : sampleWeights cfgCex stCex [21/2] = [10] := by
  have hps : samplePs cfgCex stCex [21/2] = [1] := by
    unfold samplePs
    rw [List.map_cons, List.map_nil, stCex_resolve, stCex_leaves_one]
  unfold sampleWeights
  rw [hps]
  unfold minRef
  rw [stCex_min_p]
  simp only [List.map_cons, List.map_nil]
  rw [show cfgCex.global_v = true from rfl, if_pos rfl, stCex_beta]
  rw [show (10 : ℝ) / 1 = 10 by norm_num, Real.rpow_one]

/-- C6 counterexample: with global mode on, after two adds at the initial
`max_p = 1` and one `update` raising `min_p` to 10, sampling the stale
leaf (priority 1) yields the importance weight `(min_p / p) ^ beta = 10`,
violating the claimed bound `w ≤ 1` on a reachable state of a valid
configuration. -/
theorem C6_counterexample :
    perValidCfg cfgCex ∧ perReachable cfgCex stCex ∧ 0 < stCex.size ∧
    (0 ≤ (21/2 : ℝ) ∧ (21/2 : ℝ) < perTotal cfgCex stCex) ∧
    sampleWeights cfgCex stCex [21/2] = [10] ∧ ¬ ((10 : ℝ) ≤ 1) := by
  refine ⟨⟨by norm_num [cfgCex], by norm_num [cfgCex], by norm_num [cfgCex],
      by norm_num [cfgCex], by norm_num [cfgCex]⟩, ?_, ?_, ?_, stCex_weights,
      by norm_num⟩
  · exact .upd [9] [0] (.add (.add .init)) (by simp) (by simp)
      (by
        intro i hi
        rw [List.mem_singleton] at hi
        subst hi
        simp [perAdd, perInitState, cfgCex])
  · simp [stCex, perUpdate, perAdd, perInitState, cfgCex]
  · exact ⟨by norm_num, by rw [stCex_total]; norm_num⟩

/-- C9: every `update` call advances `beta` by exactly one step to
`min(beta + (1 - beta_init) / max_train_step, 1)`, independent of the
priority list passed in; with `beta_init ≤ 1`, a positive
`max_train_step` and `beta ≤ 1`, the step is non-decreasing and the
result never exceeds 1. -/
theorem C9_beta (cfg : PERConfig) (st : PERState) (errs : List ℝ)
    (idxs : List ℕ) (hb1 : cfg.beta0 ≤ 1) (hm : 0 < cfg.mts)
    (hst : st.beta ≤ 1) :
    (perUpdate cfg st errs idxs).beta =
      min (st.beta + (1 - cfg.beta0) / cfg.mts) 1 ∧
    (perUpdate cfg st errs idxs).beta ≤ 1 ∧
    st.beta ≤ (perUpdate cfg st errs idxs).beta := by
  refine ⟨rfl, min_le_right _ _, ?_⟩
  have hiv : 0 ≤ (1 - cfg.beta0) / cfg.mts :=
    div_nonneg (by linarith) hm.le
  exact le_min (by linarith) hst

/-- Configuration used in the C9 witness. -/
def cfg9 : PERConfig := ⟨1, 1, 1/2, 1, 2, false⟩

/-- C9 witness: one concrete `update` call on the fresh state of `cfg9`,
with a single priority. -/
theorem C9_beta_witness :
    cfg9.beta0 ≤ 1 ∧ (0 : ℝ) < cfg9.mts ∧ (perInitState cfg9).beta ≤ 1 ∧
    ((perUpdate cfg9 (perInitState cfg9) [3] [0]).beta =
        min ((perInitState cfg9).beta + (1 - cfg9.beta0) / cfg9.mts) 1 ∧
      (perUpdate cfg9 (perInitState cfg9) [3] [0]).beta ≤ 1 ∧
      (perInitState cfg9).beta ≤ (perUpdate cfg9 (perInitState cfg9) [3] [0]).beta) :=
  ⟨by norm_num [cfg9], by norm_num [cfg9], by norm_num [cfg9, perInitState],
    C9_beta cfg9 (perInitState cfg9) [3] [0] (by norm_num [cfg9])
      (by norm_num [cfg9]) (by norm_num [cfg9, perInitState])⟩

end

end RLsSpec
